import Mathlib

/-!
Verification development for the zephyr discretization module
(`zephyr/backend/discretization.py`).

The module is Python 2 code (the sibling `middleware/db.py` imports
`cPickle`), so built-in `map` returns a fully materialized list.

We give a shallow embedding of the data model and the operations of the
discretization module:

* Python dictionaries (`systemConfig` and the per-subproblem update
  mappings) are association lists `PyDict V` with last-write-wins
  update (`setKey`, `updDict`), mirroring `dict.__setitem__` and
  `dict.update`.
* To reason about `copy.copy` (shallow copy) versus aliasing we also
  model a heap of dictionaries (`PyHeap V`): `_spConfigs`'s
  `duplicateUpdate` allocates a fresh dictionary holding a copy of the
  base configuration's top-level entries and merges one override into
  it, never writing through the base address.
* Exceptions (`IndexError`, `NotImplementedError`, worker timeouts) are
  values of `PyErr`, and fallible steps return `Except PyErr _`.
* `MultiFreq.__mul__` is modelled in both branches.  The sequential
  branch is a generator; its elementwise behaviour is `MultiFreq.mulSeq`
  and the fact that the call itself raises nothing is
  `MultiFreq.mulSeqCall`.  The parallel branch submits one job per
  subproblem eagerly (`MultiFreq.buildJobs`, with the argument
  `getRHS(i)` evaluated at submission time), then closes and joins the
  pool before the generator of `p.get(PARTASK_TIMEOUT)` calls is ever
  consumed; the event order is `MultiFreq.parTrace` and the blocking
  behaviour is `MultiFreq.mulParRun`.
* The discretization to instantiate (`self.disc`) and its solve action
  (`sp * rhs`, delegated to the missing `solver` module) are opaque
  parameters `disc : PyDict V → D` and `solveD : D → R → W`: the claims
  under study quantify over them.
-/

set_option autoImplicit false

namespace Zephyr

universe u v w

/-- Python exception kinds arising in the modelled code paths. -/
inductive PyErr where
  | indexError
  | notImplemented
  | timeoutError
  deriving DecidableEq, Repr

/-- A Python dictionary with `String` keys, modelled as an association
list without duplicate keys (updates replace in place, insertions
append), matching CPython `dict` observable behaviour for `d[k] = v`. -/
abbrev PyDict (V : Type u) : Type u := List (String × V)

/-- `d[k] = v`: replace the value at key `k` if present, else append the
new binding. -/
def setKey {V : Type u} : PyDict V → String → V → PyDict V
  | [], k, v => [(k, v)]
  | p :: rest, k, v => if p.1 = k then (k, v) :: rest else p :: setKey rest k v

/-- `d.get(k)`: the value bound to `k`, if any. -/
def getKey {V : Type u} : PyDict V → String → Option V
  | [], _ => none
  | p :: rest, k => if p.1 = k then some p.2 else getKey rest k

/-- `d.update(u)`: merge every binding of `u` into `d`, overwriting
existing keys. -/
def updDict {V : Type u} (d : PyDict V) (u : PyDict V) : PyDict V :=
  u.foldl (fun acc p => setKey acc p.1 p.2) d

/-- The key `'freq'` used by `MultiFreq.spUpdates`. -/
def freqKey : String := "freq"

/-! ### A heap of dictionaries, for shallow-copy (`copy.copy`) reasoning -/

/-- A heap of Python dictionaries; addresses are list indices. -/
abbrev PyHeap (V : Type u) : Type u := List (PyDict V)

/-- Dereference an address (out-of-range reads give the empty dict; all
modelled programs only read live addresses). -/
def hget {V : Type u} (h : PyHeap V) (a : Nat) : PyDict V :=
  (h[a]?).getD []

/-- Overwrite the dictionary stored at an address. -/
def hset {V : Type u} (h : PyHeap V) (a : Nat) (d : PyDict V) : PyHeap V :=
  h.set a d

/-- In-place `d[k] = v` on the dictionary at address `a`: the modelled
"mutate a top-level key" operation. -/
def hsetKey {V : Type u} (h : PyHeap V) (a : Nat) (k : String) (v : V) : PyHeap V :=
  hset h a (setKey (hget h a) k v)

/-- Heap-level `DiscretizationWrapper._spConfigs`: for each override in
order, `duplicateUpdate` makes a shallow copy of the base configuration
(`copy.copy(self.systemConfig)`, a fresh allocation whose top-level
entries are copied) and merges the single override into the copy.
Returns the final heap and the addresses of the yielded configurations,
in override order. -/
def spConfigsH {V : Type u} (h : PyHeap V) (baseA : Nat) : List (PyDict V) → PyHeap V × List Nat
  | [] => (h, [])
  | u :: us =>
    let d := updDict (hget h baseA) u
    let h1 := h ++ [d]
    let rest := spConfigsH h1 baseA us
    (rest.1, h.length :: rest.2)

/-! ### Plain (value-level) fan-out, subproblem cache, and `MultiFreq` -/

/-- `duplicateUpdate(spu)` from `DiscretizationWrapper._spConfigs`:
shallow-copy the stored system configuration and merge one subproblem
update into the copy. -/
def duplicateUpdate {V : Type u} (base : PyDict V) (spu : PyDict V) : PyDict V :=
  updDict base spu

/-- `DiscretizationWrapper._spConfigs`: one updated configuration per
subproblem update, in override order. -/
def spConfigs {V : Type u} (base : PyDict V) (upds : List (PyDict V)) : List (PyDict V) :=
  upds.map (duplicateUpdate base)

/-- `DiscretizationWrapper.scaleTerm`: `getattr(self, '_scaleTerm', 1.)`. -/
def scaleTerm {W : Type w} [One W] (s : Option W) : W :=
  s.getD 1

/-- `MultiFreq.spUpdates`: `[{'freq': freq} for freq in self.freqs]`. -/
def MultiFreq.spUpdates {V : Type u} (freqs : List V) : List (PyDict V) :=
  freqs.map (fun f => [(freqKey, f)])

/-- The body of `DiscretizationWrapper.subProblems` on first access:
`map(self.disc, self._spConfigs)` (a materialized list in Python 2). -/
def subProblemsList {V : Type u} {D : Type v} (disc : PyDict V → D)
    (base : PyDict V) (upds : List (PyDict V)) : List D :=
  (spConfigs base upds).map disc

/-- One access to the cached property `DiscretizationWrapper.subProblems`:
given the current value of the `_subProblems` slot (`none` models both a
never-set and an invalidated slot, as `getattr(self, '_subProblems', None)
is None`), return the value produced, the new slot contents, and how many
`Discretization` instances were constructed during the access. -/
def subProblemsAccess {V : Type u} {D : Type v} (disc : PyDict V → D)
    (base : PyDict V) (upds : List (PyDict V)) :
    Option (List D) → List D × Option (List D) × Nat
  | some cached => (cached, some cached, 0)
  | none =>
    let sps := subProblemsList disc base upds
    (sps, some sps, upds.length)

/-- The ordered subproblem list of a `MultiFreq` wrapper: one
discretization per frequency, built from the base configuration with
`freq` overridden. -/
def MultiFreq.subProblems {V : Type u} {D : Type v} (disc : PyDict V → D)
    (base : PyDict V) (freqs : List V) : List D :=
  subProblemsList disc base (MultiFreq.spUpdates freqs)

/-- The right-hand side of `MultiFreq.__mul__`: either one shared vector
or a Python list of vectors. -/
inductive RHSArg (R : Type v) where
  | one (r : R)
  | more (rs : List R)
  deriving DecidableEq, Repr

/-- `getRHS(i)`: the shared vector, or the `i`-th list element;
an out-of-range index raises `IndexError`. -/
def getRHS {R : Type v} : RHSArg R → Nat → Except PyErr R
  | .one r, _ => .ok r
  | .more rs, i =>
    match rs[i]? with
    | some r => .ok r
    | none => .error .indexError

/-- Python `enumerate`, starting from a given index. -/
def pyEnumFrom {A : Type v} : Nat → List A → List (Nat × A)
  | _, [] => []
  | i, x :: xs => (i, x) :: pyEnumFrom (i + 1) xs

/-- Python `enumerate(xs)`. -/
def pyEnum {A : Type v} (xs : List A) : List (Nat × A) :=
  pyEnumFrom 0 xs

/-- The sequential branch of `MultiFreq.__mul__`: the generator
`(self.scaleTerm*(sp*getRHS(i)) for i, sp in enumerate(self.subProblems))`,
as the list of values its successive elements produce when pulled; an
element whose `getRHS(i)` raises propagates that exception at the pull. -/
def MultiFreq.mulSeq {V : Type u} {D : Type v} {R W : Type w} [Mul W]
    (disc : PyDict V → D) (solveD : D → R → W)
    (base : PyDict V) (freqs : List V) (k : W) (rhs : RHSArg R) :
    List (Except PyErr W) :=
  (pyEnum (MultiFreq.subProblems disc base freqs)).map
    (fun p => (getRHS rhs p.1).map (fun r => k * solveD p.2 r))

/-- The sequential `MultiFreq.__mul__` call itself: building and
returning the generator raises nothing, so the call always returns
normally; errors are deferred to element pulls. -/
def MultiFreq.mulSeqCall {V : Type u} {D : Type v} {R W : Type w} [Mul W]
    (disc : PyDict V → D) (solveD : D → R → W)
    (base : PyDict V) (freqs : List V) (k : W) (rhs : RHSArg R) :
    Except PyErr (List (Except PyErr W)) :=
  .ok (MultiFreq.mulSeq disc solveD base freqs k rhs)

/-- The submission loop of the parallel branch: for each `(i, sp)` in
`enumerate(self.subProblems)`, evaluate `getRHS(i)` (eagerly, as the
argument tuple of `pool.apply_async`) and submit the job; an
`IndexError` from `getRHS(i)` aborts the loop, after the earlier jobs
have already been submitted. -/
def MultiFreq.buildJobs {D : Type v} {R : Type w} (rhs : RHSArg R) :
    List (Nat × D) → Except PyErr (List (D × R))
  | [] => .ok []
  | p :: ps =>
    match getRHS rhs p.1 with
    | .error e => .error e
    | .ok r => (MultiFreq.buildJobs rhs ps).map (fun js => (p.2, r) :: js)

/-- How many jobs the submission loop dispatches before it stops
(all of them on success, the ones before the failing index on error). -/
def MultiFreq.submittedCount {D : Type v} {R : Type w} (rhs : RHSArg R) :
    List (Nat × D) → Nat
  | [] => 0
  | p :: ps =>
    match getRHS rhs p.1 with
    | .error _ => 0
    | .ok _ => MultiFreq.submittedCount rhs ps + 1

/-- The parallel branch of `MultiFreq.__mul__`, value-level: submit all
jobs eagerly, then (after `pool.close(); pool.join()` has waited for
them) the retrieved, scaled results in submission order.  A missing
right-hand-side index raises during submission. -/
def MultiFreq.mulPar {V : Type u} {D : Type v} {R W : Type w} [Mul W]
    (disc : PyDict V → D) (solveD : D → R → W)
    (base : PyDict V) (freqs : List V) (k : W) (rhs : RHSArg R) :
    Except PyErr (List W) :=
  (MultiFreq.buildJobs rhs (pyEnum (MultiFreq.subProblems disc base freqs))).map
    (fun js => js.map (fun j => k * solveD j.1 j.2))

/-! ### The parallel branch as an event trace, and its blocking behaviour -/

/-- `PARTASK_TIMEOUT` from the module head. -/
def PARTASK_TIMEOUT : Nat := 60

/-- Events of one parallel-mode `__mul__` call, in program order:
`submit i` is `pool.apply_async` for subproblem `i`; `genCreate` builds
the (unconsumed) result generator; `close` and `join` tear the pool
down; `retGen` is the `return u` of `__mul__`; `getRes i` is the
`p.get(PARTASK_TIMEOUT)` for handle `i`, run when the caller pulls
element `i` of the returned generator. -/
inductive PEvent where
  | submit (i : Nat)
  | genCreate
  | close
  | join
  | retGen
  | getRes (i : Nat)
  deriving DecidableEq, Repr

/-- The event order of a parallel `__mul__` call with `n` subproblems
whose returned generator is then fully consumed: all submissions first,
then generator creation, `pool.close()`, `pool.join()`, the return of
`__mul__`, and only then the timed `get` of each result handle, in
submission order. -/
def MultiFreq.parTrace (n : Nat) : List PEvent :=
  (List.range n).map PEvent.submit
    ++ [PEvent.genCreate, PEvent.close, PEvent.join, PEvent.retGen]
    ++ (List.range n).map PEvent.getRes

/-- Outcome of a parallel `__mul__` call as far as blocking goes. -/
inductive ParOutcome where
  | returns
  | hangsAtJoin
  | timeoutError
  deriving DecidableEq, Repr

/-- Whether `pool.join()` (after `pool.close()`) ever returns: it waits
for every worker to finish its submitted task, so it returns precisely
when every one of the `n` jobs completes (at whatever finite time). -/
def poolJoinCompletes (n : Nat) (completes : Nat → Option Nat) : Bool :=
  (List.range n).all (fun i => (completes i).isSome)

/-- Blocking behaviour of a parallel `__mul__` call with `n` jobs whose
completion times are `completes` (`none` = the job never completes):
the call reaches `pool.join()` before any result is retrieved, so if
some job never completes the call hangs there forever; otherwise it
returns, and every later `p.get(PARTASK_TIMEOUT)` finds its result
already available (all jobs finished before `join` returned), so no
`get` ever raises a timeout. -/
def MultiFreq.mulParRun (n : Nat) (completes : Nat → Option Nat) : ParOutcome :=
  if poolJoinCompletes n completes then .returns else .hangsAtJoin

/-! ### `BaseDiscretization` physical fields (`c`, `rho`) -/

/-- A physical field as stored on a discretization: either a scalar (to
be broadcast) or a full `(nz, nx)` grid. -/
inductive FieldVal (C : Type w) (nz nx : Nat) where
  | scalar (v : C)
  | grid (g : Fin nz → Fin nx → C)

/-- Numpy-style broadcast used by both `c` and `rho`: an array is
returned as-is, a scalar is multiplied onto `ones((nz, nx))`. -/
def broadcastTo {C : Type w} {nz nx : Nat} : FieldVal C nz nx → Fin nz → Fin nx → C
  | .scalar v => fun _ _ => v
  | .grid g => g

/-- The state of one `BaseDiscretization` relevant to `c` and `rho` on
an `(nz, nx)` grid: the stored `_c`, and the `_rho` slot (absent when
density was not supplied and has not yet been computed). -/
structure DiscState (C : Type w) (nz nx : Nat) where
  cF : FieldVal C nz nx
  rhoF : Option (FieldVal C nz nx)

/-- The property `BaseDiscretization.c`: the stored velocity, broadcast
to the full grid when stored as a scalar. -/
def BaseDiscretization.cProp {C : Type w} {nz nx : Nat} (st : DiscState C nz nx) :
    Fin nz → Fin nx → C :=
  broadcastTo st.cF

/-- The default empirical density `310. * self.c**0.25`, computed
elementwise on the broadcast velocity grid. -/
def rhoFormula {C : Type w} [Field C] [Pow C C] {nz nx : Nat} (st : DiscState C nz nx) :
    Fin nz → Fin nx → C :=
  fun i j => 310 * (BaseDiscretization.cProp st i j) ^ ((4 : C)⁻¹)

/-- One access to the property `BaseDiscretization.rho`: if `_rho` is
unset, compute `310. * self.c**0.25` (an array, since `self.c` is the
broadcast grid) and store it; then return the stored value, broadcast
exactly as `c` is.  Returns the value, the post-access state, and
whether the empirical relation was evaluated during this access. -/
def BaseDiscretization.rhoProp {C : Type w} [Field C] [Pow C C] {nz nx : Nat}
    (st : DiscState C nz nx) : (Fin nz → Fin nx → C) × DiscState C nz nx × Bool :=
  match st.rhoF with
  | none =>
    let g : FieldVal C nz nx := .grid (rhoFormula st)
    (broadcastTo g, { st with rhoF := some g }, true)
  | some r => (broadcastTo r, st, false)

/-- The well-formedness precondition the spec puts on a list-valued
right-hand side: its length equals the number of subproblems (a shared
vector is always acceptable). -/
def rhsOK {R : Type w} : RHSArg R → Nat → Prop
  | .one _, _ => True
  | .more rs, n => rs.length = n

/-- An arbitrary power operation on `ℚ`, used to instantiate the
abstract elementwise power of the density relation on a computable
scalar field in concrete examples. -/
def ratQuarterPow : Pow ℚ ℚ :=
  ⟨fun a _ => a⟩

/-- A concrete one-cell discretization state with scalar velocity and
no stored density. -/
def discStateQ : DiscState ℚ 1 1 :=
  { cF := FieldVal.scalar 2, rhoF := none }

/-! ### Not-implemented accessors -/

/-- `DiscretizationWrapper.spUpdates`: `raise NotImplementedError` on
access. -/
def DiscretizationWrapper.spUpdatesBase (V : Type u) : Except PyErr (List (PyDict V)) :=
  .error .notImplemented

/-- Modelled from the spec: the operator accessor `A` of the base
discretization lives in the missing `meta` base-class module; per the
spec, "accessing `A` without a subclass override is a fatal 'not
implemented' error", raised immediately on first access. -/
def BaseDiscretization.Aaccess (Op : Type v) : Except PyErr Op :=
  .error .notImplemented

/-! ## Helper lemmas -/

theorem pyEnumFrom_getElem? {A : Type v} (xs : List A) :
    ∀ (s i : Nat), (pyEnumFrom s xs)[i]? = xs[i]?.map (fun x => (s + i, x)) := by
  induction xs with
  | nil => intro s i; simp [pyEnumFrom]
  | cons x xs ih =>
    intro s i
    cases i with
    | zero => simp [pyEnumFrom]
    | succ n =>
      simp only [pyEnumFrom, List.getElem?_cons_succ, ih (s + 1) n,
        show s + 1 + n = s + (n + 1) from by omega]

theorem pyEnum_getElem? {A : Type v} (xs : List A) (i : Nat) :
    (pyEnum xs)[i]? = xs[i]?.map (fun x => (i, x)) := by
  simpa using pyEnumFrom_getElem? xs 0 i

theorem pyEnumFrom_length {A : Type v} (xs : List A) :
    ∀ s : Nat, (pyEnumFrom s xs).length = xs.length := by
  induction xs with
  | nil => intro s; rfl
  | cons x xs ih => intro s; simp [pyEnumFrom, ih]

theorem pyEnum_length {A : Type v} (xs : List A) : (pyEnum xs).length = xs.length :=
  pyEnumFrom_length xs 0

theorem MultiFreq.subProblems_getElem? {V : Type u} {D : Type v} (disc : PyDict V → D)
    (base : PyDict V) (freqs : List V) (i : Nat) :
    (MultiFreq.subProblems disc base freqs)[i]? =
      freqs[i]?.map (fun f => disc (updDict base [(freqKey, f)])) := by
  simp only [MultiFreq.subProblems, subProblemsList, spConfigs, MultiFreq.spUpdates,
    List.map_map, List.getElem?_map]
  cases freqs[i]? <;> rfl

theorem MultiFreq.subProblems_length {V : Type u} {D : Type v} (disc : PyDict V → D)
    (base : PyDict V) (freqs : List V) :
    (MultiFreq.subProblems disc base freqs).length = freqs.length := by
  simp [MultiFreq.subProblems, subProblemsList, spConfigs, MultiFreq.spUpdates]

theorem MultiFreq.mulSeq_length {V : Type u} {D : Type v} {R W : Type w} [Mul W]
    (disc : PyDict V → D) (solveD : D → R → W)
    (base : PyDict V) (freqs : List V) (k : W) (rhs : RHSArg R) :
    (MultiFreq.mulSeq disc solveD base freqs k rhs).length = freqs.length := by
  simp [MultiFreq.mulSeq, pyEnum_length, MultiFreq.subProblems_length]

theorem MultiFreq.mulSeq_getElem?_of {V : Type u} {D : Type v} {R W : Type w} [Mul W]
    (disc : PyDict V → D) (solveD : D → R → W)
    (base : PyDict V) (freqs : List V) (k : W) (rhs : RHSArg R)
    {i : Nat} {f : V} (hf : freqs[i]? = some f) :
    (MultiFreq.mulSeq disc solveD base freqs k rhs)[i]? =
      some ((getRHS rhs i).map
        (fun r => k * solveD (disc (updDict base [(freqKey, f)])) r)) := by
  simp [MultiFreq.mulSeq, pyEnum_getElem?, MultiFreq.subProblems_getElem?, hf]

theorem MultiFreq.buildJobs_one {D : Type v} {R : Type w} (r : R) (ps : List (Nat × D)) :
    MultiFreq.buildJobs (RHSArg.one r) ps = .ok (ps.map (fun p => (p.2, r))) := by
  induction ps with
  | nil => rfl
  | cons p ps ih => simp [MultiFreq.buildJobs, getRHS, ih, Except.map]

theorem MultiFreq.buildJobs_more_err {D : Type v} {R : Type w} (rs : List R) :
    ∀ (xs : List D) (s : Nat), s ≤ rs.length → rs.length < s + xs.length →
      MultiFreq.buildJobs (RHSArg.more rs) (pyEnumFrom s xs) = .error PyErr.indexError := by
  intro xs
  induction xs with
  | nil =>
    intro s hs hlt
    simp only [List.length_nil] at hlt
    omega
  | cons x xs ih =>
    intro s hs hlt
    simp only [List.length_cons] at hlt
    rcases Nat.lt_or_ge s rs.length with h | h
    · have hsome : rs[s]? = some rs[s] := List.getElem?_eq_getElem h
      simp only [pyEnumFrom, MultiFreq.buildJobs, getRHS, hsome]
      rw [ih (s + 1) (by omega) (by omega)]
      rfl
    · have hnone : rs[s]? = none := List.getElem?_eq_none h
      simp [pyEnumFrom, MultiFreq.buildJobs, getRHS, hnone]

theorem MultiFreq.submittedCount_more {D : Type v} {R : Type w} (rs : List R) :
    ∀ (xs : List D) (s : Nat), s ≤ rs.length → rs.length ≤ s + xs.length →
      MultiFreq.submittedCount (RHSArg.more rs) (pyEnumFrom s xs) = rs.length - s := by
  intro xs
  induction xs with
  | nil =>
    intro s hs hle
    simp only [List.length_nil] at hle
    simp only [pyEnumFrom, MultiFreq.submittedCount]
    omega
  | cons x xs ih =>
    intro s hs hle
    simp only [List.length_cons] at hle
    rcases Nat.lt_or_ge s rs.length with h | h
    · have hsome : rs[s]? = some rs[s] := List.getElem?_eq_getElem h
      simp only [pyEnumFrom, MultiFreq.submittedCount, getRHS, hsome]
      rw [ih (s + 1) (by omega) (by omega)]
      omega
    · have hnone : rs[s]? = none := List.getElem?_eq_none h
      simp only [pyEnumFrom, MultiFreq.submittedCount, getRHS, hnone]
      omega

theorem MultiFreq.buildJobs_more_ok {D : Type v} {R : Type w} (rs : List R) :
    ∀ (xs : List D) (s : Nat), s + xs.length ≤ rs.length →
      MultiFreq.buildJobs (RHSArg.more rs) (pyEnumFrom s xs) = .ok (xs.zip (rs.drop s)) := by
  intro xs
  induction xs with
  | nil => intro s _; rfl
  | cons x xs ih =>
    intro s hle
    simp only [List.length_cons] at hle
    have h : s < rs.length := by omega
    have hsome : rs[s]? = some rs[s] := List.getElem?_eq_getElem h
    simp only [pyEnumFrom, MultiFreq.buildJobs, getRHS, hsome]
    rw [ih (s + 1) (by omega)]
    rw [List.drop_eq_getElem_cons h, List.zip_cons_cons]
    rfl

theorem hget_append_left {V : Type u} (h : PyHeap V) (d : PyDict V) {a : Nat}
    (ha : a < h.length) : hget (h ++ [d]) a = hget h a := by
  simp [hget, List.getElem?_append_left ha]

theorem spConfigsH_spec {V : Type u} (us : List (PyDict V)) :
    ∀ (h : PyHeap V) (a : Nat), a < h.length →
      spConfigsH h a us =
        (h ++ us.map (fun u => updDict (hget h a) u), List.range' h.length us.length) := by
  induction us with
  | nil => intro h a _; simp [spConfigsH]
  | cons u us ih =>
    intro h a ha
    have ha' : a < (h ++ [updDict (hget h a) u]).length := by
      simp; omega
    simp only [spConfigsH, ih _ _ ha', hget_append_left h _ ha]
    simp [List.range'_succ, List.append_assoc]

/-! ## Claim theorems -/

/-- C1: for a `MultiFreq` wrapper with frequency list `freqs`, scale
factor `k`, and a right-hand side that is one shared vector or a list
of `freqs.length` vectors, sequential-mode multiply yields a sequence
of exactly `freqs.length` elements in subproblem (frequency) order
whose `i`-th element is `k` times the solve of the `i`-th subproblem's
discretization — built from the base configuration with `freq`
overridden to `freqs[i]` — against the `i`-th right-hand side, and
every element is a successful solve. -/
theorem mulSeq_correct {V : Type u} {D : Type v} {R W : Type w} [Mul W]
    (disc : PyDict V → D) (solveD : D → R → W)
    (base : PyDict V) (freqs : List V) (k : W) (rhs : RHSArg R)
    (h : rhsOK rhs freqs.length) :
    (MultiFreq.mulSeq disc solveD base freqs k rhs).length = freqs.length ∧
    (∀ r0, rhs = RHSArg.one r0 → ∀ (i : Nat) (f : V), freqs[i]? = some f →
      (MultiFreq.mulSeq disc solveD base freqs k rhs)[i]? =
        some (Except.ok (k * solveD (disc (updDict base [(freqKey, f)])) r0) : Except PyErr W)) ∧
    (∀ rs, rhs = RHSArg.more rs → ∀ (i : Nat) (f : V) (r : R), freqs[i]? = some f → rs[i]? = some r →
      (MultiFreq.mulSeq disc solveD base freqs k rhs)[i]? =
        some (Except.ok (k * solveD (disc (updDict base [(freqKey, f)])) r) : Except PyErr W)) ∧
    (∀ i, i < freqs.length → ∃ w,
      (MultiFreq.mulSeq disc solveD base freqs k rhs)[i]? = some (Except.ok w)) := by
  refine ⟨MultiFreq.mulSeq_length disc solveD base freqs k rhs, ?_, ?_, ?_⟩
  · rintro r0 rfl i f hf
    rw [MultiFreq.mulSeq_getElem?_of disc solveD base freqs k _ hf]
    rfl
  · rintro rs rfl i f r hf hr
    rw [MultiFreq.mulSeq_getElem?_of disc solveD base freqs k _ hf]
    simp [getRHS, hr, Except.map]
  · intro i hi
    have hf : freqs[i]? = some freqs[i] := List.getElem?_eq_getElem hi
    rw [MultiFreq.mulSeq_getElem?_of disc solveD base freqs k rhs hf]
    cases rhs with
    | one r0 => exact ⟨_, rfl⟩
    | more rs =>
      have hlen : rs.length = freqs.length := by simpa [rhsOK] using h
      have hri : i < rs.length := by omega
      have hr : rs[i]? = some rs[i] := List.getElem?_eq_getElem hri
      refine ⟨k * solveD (disc (updDict base [(freqKey, freqs[i])])) rs[i], ?_⟩
      simp [getRHS, hr, Except.map]

/-- Witness for C1: frequencies `[5, 10, 15]`, shared source vector `7`,
scale `2`. -/
theorem mulSeq_correct_witness :
    rhsOK (RHSArg.one (7 : ℤ)) ([(5 : ℤ), 10, 15] : List ℤ).length ∧
    (MultiFreq.mulSeq (fun d => d) (fun _ r => r) ([] : PyDict ℤ)
      [(5 : ℤ), 10, 15] 2 (RHSArg.one 7)).length = 3 :=
  ⟨trivial,
    (mulSeq_correct (fun d => d) (fun _ r => r) [] [5, 10, 15] 2 (RHSArg.one 7) trivial).1⟩

/-- C5: the first access to `subProblems` materializes one
discretization per fanned-out configuration, in override order, and
fills the cache slot; a second access without an intervening
invalidation returns the identical cached list, leaves the slot
untouched, and constructs no new instances. -/
theorem subProblems_cache_idempotent {V : Type u} {D : Type v}
    (disc : PyDict V → D) (base : PyDict V) (upds : List (PyDict V)) :
    (subProblemsAccess disc base upds none).1 = upds.map (fun u => disc (updDict base u)) ∧
    (subProblemsAccess disc base upds none).2.2 = upds.length ∧
    (subProblemsAccess disc base upds (subProblemsAccess disc base upds none).2.1).1 =
      (subProblemsAccess disc base upds none).1 ∧
    (subProblemsAccess disc base upds (subProblemsAccess disc base upds none).2.1).2.1 =
      (subProblemsAccess disc base upds none).2.1 ∧
    (subProblemsAccess disc base upds (subProblemsAccess disc base upds none).2.1).2.2 = 0 := by
  refine ⟨?_, rfl, rfl, rfl, rfl⟩
  simp [subProblemsAccess, subProblemsList, spConfigs, duplicateUpdate, List.map_map,
    Function.comp]

/-- C7: the scale term defaults to `1` when not supplied, and a multiply
with scale `k` yields, elementwise, `k` times the output of the same
call with scale `1` — in sequential and in parallel mode. -/
theorem scale_linearity {V : Type u} {D : Type v} {R W : Type w} [Monoid W]
    (disc : PyDict V → D) (solveD : D → R → W)
    (base : PyDict V) (freqs : List V) (k : W) (rhs : RHSArg R) :
    scaleTerm (none : Option W) = 1 ∧
    MultiFreq.mulSeq disc solveD base freqs k rhs =
      (MultiFreq.mulSeq disc solveD base freqs 1 rhs).map (Except.map (fun w => k * w)) ∧
    MultiFreq.mulPar disc solveD base freqs k rhs =
      (MultiFreq.mulPar disc solveD base freqs 1 rhs).map (fun l => l.map (fun w => k * w)) := by
  refine ⟨rfl, ?_, ?_⟩
  · simp only [MultiFreq.mulSeq, List.map_map]
    apply List.map_congr_left
    intro p _
    cases hp : getRHS rhs p.1 <;> simp [Except.map, hp, one_mul]
  · simp only [MultiFreq.mulPar]
    cases hb : MultiFreq.buildJobs rhs (pyEnum (MultiFreq.subProblems disc base freqs)) with
    | error e => rfl
    | ok js =>
      simp only [Except.map, List.map_map]
      congr 1
      apply List.map_congr_left
      intro j _
      simp [one_mul]

/-- C9: accessing the override list `spUpdates` on the base wrapper, or
the operator `A` of a base discretization without a subclass override,
is a fatal not-implemented error, raised immediately on first access. -/
theorem abstract_access_not_implemented (V : Type u) (Op : Type v) :
    DiscretizationWrapper.spUpdatesBase V = Except.error PyErr.notImplemented ∧
    BaseDiscretization.Aaccess Op = Except.error PyErr.notImplemented :=
  ⟨rfl, rfl⟩

/-- C10: a right-hand-side list strictly longer than the number of
subproblems raises no error in either mode: the first `freqs.length`
entries are consumed in order and the extra entries are silently
ignored. -/
theorem mulLonger_spec {V : Type u} {D : Type v} {R W : Type w} [Mul W]
    (disc : PyDict V → D) (solveD : D → R → W)
    (base : PyDict V) (freqs : List V) (k : W) (rs : List R)
    (h : freqs.length < rs.length) :
    (MultiFreq.mulSeq disc solveD base freqs k (RHSArg.more rs)).length = freqs.length ∧
    (∀ (i : Nat) (f : V) (r : R), freqs[i]? = some f → rs[i]? = some r →
      (MultiFreq.mulSeq disc solveD base freqs k (RHSArg.more rs))[i]? =
        some (Except.ok (k * solveD (disc (updDict base [(freqKey, f)])) r) : Except PyErr W)) ∧
    (∀ i, i < freqs.length → ∃ w,
      (MultiFreq.mulSeq disc solveD base freqs k (RHSArg.more rs))[i]? =
        some (Except.ok w)) ∧
    (∃ out, MultiFreq.mulPar disc solveD base freqs k (RHSArg.more rs) = Except.ok out ∧
      out.length = freqs.length ∧
      ∀ (i : Nat) (f : V) (r : R), freqs[i]? = some f → rs[i]? = some r →
        out[i]? = some (k * solveD (disc (updDict base [(freqKey, f)])) r)) := by
  have hnsp : (MultiFreq.subProblems disc base freqs).length = freqs.length :=
    MultiFreq.subProblems_length disc base freqs
  refine ⟨MultiFreq.mulSeq_length disc solveD base freqs k (RHSArg.more rs), ?_, ?_, ?_⟩
  · intro i f r hf hr
    rw [MultiFreq.mulSeq_getElem?_of disc solveD base freqs k _ hf]
    simp [getRHS, hr, Except.map]
  · intro i hi
    have hf : freqs[i]? = some freqs[i] := List.getElem?_eq_getElem hi
    have hri : i < rs.length := by omega
    have hr : rs[i]? = some rs[i] := List.getElem?_eq_getElem hri
    rw [MultiFreq.mulSeq_getElem?_of disc solveD base freqs k _ hf]
    refine ⟨k * solveD (disc (updDict base [(freqKey, freqs[i])])) rs[i], ?_⟩
    simp [getRHS, hr, Except.map]
  · have hb := MultiFreq.buildJobs_more_ok rs (MultiFreq.subProblems disc base freqs) 0
      (by omega)
    refine ⟨((MultiFreq.subProblems disc base freqs).zip rs).map
      (fun j => k * solveD j.1 j.2), ?_, ?_, ?_⟩
    · simp only [MultiFreq.mulPar, pyEnum]
      rw [hb]
      simp [Except.map]
    · simp only [List.length_map, List.length_zip]
      omega
    · intro i f r hf hr
      have hsp : (MultiFreq.subProblems disc base freqs)[i]? =
          some (disc (updDict base [(freqKey, f)])) := by
        rw [MultiFreq.subProblems_getElem? disc base freqs i, hf]
        rfl
      have hz : ((MultiFreq.subProblems disc base freqs).zip rs)[i]? =
          some (disc (updDict base [(freqKey, f)]), r) :=
        List.getElem?_zip_eq_some.mpr ⟨hsp, hr⟩
      simp [List.getElem?_map, hz]

/-- Witness for C10: one frequency, a two-element right-hand-side
list. -/
theorem mulLonger_spec_witness :
    ([(5 : ℤ)] : List ℤ).length < ([(3 : ℤ), 4] : List ℤ).length ∧
    (MultiFreq.mulSeq (fun d => d) (fun _ r => r) ([] : PyDict ℤ)
      [(5 : ℤ)] 2 (RHSArg.more [3, 4])).length = 1 :=
  ⟨by decide,
    (mulLonger_spec (fun d => d) (fun _ r => r) [] [5] 2 [3, 4] (by decide)).1⟩

/-- C3 counterexample: with two subproblems and a one-element rhs list,
the sequential `__mul__` call raises nothing — it returns its output
sequence normally, and subproblem 0's solve executes and succeeds when
the first element is pulled — and in parallel mode one job is
dispatched before the `IndexError` fires; so the length mismatch is
not raised before dispatch. -/
theorem mulSeqCall_no_early_error_cex :
    MultiFreq.mulSeqCall (fun d => d) (fun _ r => r) ([] : PyDict ℤ)
      [(5 : ℤ), 10] 1 (RHSArg.more [3]) =
      Except.ok (MultiFreq.mulSeq (fun d => d) (fun _ r => r) ([] : PyDict ℤ)
        [(5 : ℤ), 10] 1 (RHSArg.more [3])) ∧
    (MultiFreq.mulSeq (fun d => d) (fun _ r => r) ([] : PyDict ℤ)
      [(5 : ℤ), 10] 1 (RHSArg.more [3]))[0]? = some (Except.ok 3) ∧
    MultiFreq.submittedCount (RHSArg.more [(3 : ℤ)])
      (pyEnum (MultiFreq.subProblems (fun d => d) ([] : PyDict ℤ) [(5 : ℤ), 10])) = 1 :=
  ⟨rfl, rfl, rfl⟩

/-- C3 (amended): a rhs list SHORTER than the frequency list does not
raise before dispatch.  Sequential mode: the call returns its lazy
output normally, elements before the mismatch still solve, and the
`IndexError` surfaces only when element `len(rhs)` is pulled.  Parallel
mode: the submission loop dispatches the first `len(rhs)` jobs and then
the call fails with `IndexError`.  (A longer list raises no error at
all — see the C10 theorem.) -/
theorem mulShorter_spec {V : Type u} {D : Type v} {R W : Type w} [Mul W]
    (disc : PyDict V → D) (solveD : D → R → W)
    (base : PyDict V) (freqs : List V) (k : W) (rs : List R)
    (h : rs.length < freqs.length) :
    MultiFreq.mulSeqCall disc solveD base freqs k (RHSArg.more rs) =
      Except.ok (MultiFreq.mulSeq disc solveD base freqs k (RHSArg.more rs)) ∧
    (∀ (i : Nat) (f : V) (r : R), freqs[i]? = some f → rs[i]? = some r →
      (MultiFreq.mulSeq disc solveD base freqs k (RHSArg.more rs))[i]? =
        some (Except.ok (k * solveD (disc (updDict base [(freqKey, f)])) r) : Except PyErr W)) ∧
    (∀ i, rs.length ≤ i → i < freqs.length →
      (MultiFreq.mulSeq disc solveD base freqs k (RHSArg.more rs))[i]? =
        some (Except.error PyErr.indexError : Except PyErr W)) ∧
    MultiFreq.mulPar disc solveD base freqs k (RHSArg.more rs) =
      Except.error PyErr.indexError ∧
    MultiFreq.submittedCount (RHSArg.more rs)
      (pyEnum (MultiFreq.subProblems disc base freqs)) = rs.length := by
  have hnsp : (MultiFreq.subProblems disc base freqs).length = freqs.length :=
    MultiFreq.subProblems_length disc base freqs
  refine ⟨rfl, ?_, ?_, ?_, ?_⟩
  · intro i f r hf hr
    rw [MultiFreq.mulSeq_getElem?_of disc solveD base freqs k _ hf]
    simp [getRHS, hr, Except.map]
  · intro i hle hi
    have hf : freqs[i]? = some freqs[i] := List.getElem?_eq_getElem hi
    have hr : rs[i]? = none := List.getElem?_eq_none hle
    rw [MultiFreq.mulSeq_getElem?_of disc solveD base freqs k _ hf]
    simp [getRHS, hr, Except.map]
  · simp only [MultiFreq.mulPar, pyEnum]
    rw [MultiFreq.buildJobs_more_err rs _ 0 (by omega) (by omega)]
    rfl
  · simp only [pyEnum]
    rw [MultiFreq.submittedCount_more rs _ 0 (by omega) (by omega)]
    omega

/-- Witness for C3 (amended): two frequencies, a one-element rhs
list. -/
theorem mulShorter_spec_witness :
    ([(3 : ℤ)] : List ℤ).length < ([(5 : ℤ), 10] : List ℤ).length ∧
    MultiFreq.mulPar (fun d => d) (fun _ r => r) ([] : PyDict ℤ)
      [(5 : ℤ), 10] 1 (RHSArg.more [3]) = Except.error PyErr.indexError :=
  ⟨by decide,
    (mulShorter_spec (fun d => d) (fun _ r => r) [] [5, 10] 1 [3] (by decide)).2.2.2.1⟩

/-- C2 (the code at the failing input): a parallel multiply whose only
job never completes blocks forever at `pool.join()` — reached inside
`__mul__` before any `p.get(PARTASK_TIMEOUT)` runs — instead of
failing with a timeout error; when every job completes the call
returns, each bounded `get` finding its result already available.  The
wait bound passed to every `get` is 60. -/
theorem mulParRun_neverCompleting_hangs :
    MultiFreq.mulParRun 1 (fun _ => none) = ParOutcome.hangsAtJoin ∧
    MultiFreq.mulParRun 1 (fun _ => none) ≠ ParOutcome.timeoutError ∧
    MultiFreq.mulParRun 1 (fun _ => some 5) = ParOutcome.returns ∧
    PARTASK_TIMEOUT = 60 := by
  decide

/-- C4 counterexample: with one subproblem, the pool-teardown events
(`close`, `join`) occur strictly before the retrieval of the first
(and last) result in the call's event order: the pool is not torn
down "only after the last result has been retrieved", and the call
blocks at `join`, not only at retrieval time. -/
theorem parTrace_teardown_cex :
    (MultiFreq.parTrace 1).indexOf PEvent.close <
      (MultiFreq.parTrace 1).indexOf (PEvent.getRes 0) ∧
    (MultiFreq.parTrace 1).indexOf PEvent.join <
      (MultiFreq.parTrace 1).indexOf (PEvent.getRes 0) := by
  decide

/-- C4 (amended): in a parallel `__mul__` call with `n` subproblems,
all jobs are submitted eagerly first (positions `0..n-1`), the result
generator is created unconsumed, then the pool is closed and joined —
torn down inside the call, before `__mul__` returns and before any
result is retrieved — and the bounded retrievals come last, in
submission order, as the caller consumes the output. -/
theorem parTrace_order (n i : Nat) (hi : i < n) :
    (MultiFreq.parTrace n)[i]? = some (PEvent.submit i) ∧
    (MultiFreq.parTrace n)[n]? = some PEvent.genCreate ∧
    (MultiFreq.parTrace n)[n + 1]? = some PEvent.close ∧
    (MultiFreq.parTrace n)[n + 2]? = some PEvent.join ∧
    (MultiFreq.parTrace n)[n + 3]? = some PEvent.retGen ∧
    (MultiFreq.parTrace n)[n + 4 + i]? = some (PEvent.getRes i) ∧
    (MultiFreq.parTrace n).length = 2 * n + 4 := by
  have hA : ((List.range n).map PEvent.submit).length = n := by simp
  have hAB : (((List.range n).map PEvent.submit) ++
      [PEvent.genCreate, PEvent.close, PEvent.join, PEvent.retGen]).length = n + 4 := by
    simp
  refine ⟨?_, ?_, ?_, ?_, ?_, ?_, ?_⟩
  · rw [MultiFreq.parTrace, List.getElem?_append_left (by omega),
      List.getElem?_append_left (by omega)]
    simp [List.getElem?_range hi]
  · rw [MultiFreq.parTrace, List.getElem?_append_left (by omega),
      List.getElem?_append_right (by omega), hA]
    simp
  · rw [MultiFreq.parTrace, List.getElem?_append_left (by omega),
      List.getElem?_append_right (by omega), hA]
    simp
  · rw [MultiFreq.parTrace, List.getElem?_append_left (by omega),
      List.getElem?_append_right (by omega), hA]
    simp
  · rw [MultiFreq.parTrace, List.getElem?_append_left (by omega),
      List.getElem?_append_right (by omega), hA]
    simp
  · rw [MultiFreq.parTrace, List.getElem?_append_right (by omega), hAB]
    have : n + 4 + i - (n + 4) = i := by omega
    rw [this]
    simp [List.getElem?_range hi]
  · simp [MultiFreq.parTrace]
    omega

/-- Witness for C4 (amended) at `n = 1`, `i = 0`. -/
theorem parTrace_order_witness :
    0 < 1 ∧ (MultiFreq.parTrace 1)[0]? = some (PEvent.submit 0) :=
  ⟨by decide, (parTrace_order 1 0 (by decide)).1⟩

/-- C6: each yielded per-subproblem configuration is a fresh dictionary
holding the base configuration's top-level entries merged with exactly
one override, produced in override order at fresh addresses; and an
in-place write of a top-level key to one yielded configuration leaves
the base configuration and every other yielded configuration
unchanged. -/
theorem spConfigs_copy_on_write {V : Type u} (b : PyDict V) (us : List (PyDict V))
    (i j : Nat) (key : String) (v : V)
    (hi : i < us.length) (_hj : j < us.length) (hne : j ≠ i) :
    (spConfigsH [b] 0 us).2 = List.range' 1 us.length ∧
    (∀ (i2 : Nat) (u : PyDict V), us[i2]? = some u →
      hget (spConfigsH [b] 0 us).1 (1 + i2) = updDict b u) ∧
    (∃ u, us[i]? = some u ∧ hget (spConfigsH [b] 0 us).1 (1 + i) = updDict b u) ∧
    hget (hsetKey (spConfigsH [b] 0 us).1 (1 + i) key v) 0 = b ∧
    hget (hsetKey (spConfigsH [b] 0 us).1 (1 + i) key v) (1 + j) =
      hget (spConfigsH [b] 0 us).1 (1 + j) := by
  have hspec := spConfigsH_spec us [b] 0 (by simp)
  have hbase : hget [b] 0 = b := rfl
  rw [hspec]
  simp only [hbase, List.singleton_append, List.length_cons, List.length_nil]
  refine ⟨?_, ?_, ?_, ?_, ?_⟩
  · simp
  · intro i2 u hu
    simp [hget, Nat.add_comm 1 i2, hu]
  · refine ⟨us[i], List.getElem?_eq_getElem hi, ?_⟩
    simp [hget, Nat.add_comm 1 i, List.getElem?_eq_getElem hi]
  · have hne0 : 1 + i ≠ 0 := by omega
    simp [hsetKey, hset, hget, List.getElem?_set_ne hne0]
  · have hnej : 1 + i ≠ 1 + j := by omega
    simp [hsetKey, hset, hget, List.getElem?_set_ne hnej]

/-- Witness for C6: base `{freq: 1}`, overrides `{freq: 2}` and
`{freq: 3}`, mutating the first yielded configuration. -/
theorem spConfigs_copy_on_write_witness :
    0 < 2 ∧
    hget (hsetKey (spConfigsH [[(freqKey, (1 : ℤ))]] 0
        [[(freqKey, 2)], [(freqKey, 3)]]).1 (1 + 0) freqKey 9) 0 = [(freqKey, (1 : ℤ))] :=
  ⟨by decide,
    (spConfigs_copy_on_write [(freqKey, (1 : ℤ))] [[(freqKey, 2)], [(freqKey, 3)]]
      0 1 freqKey 9 (by decide) (by decide) (by decide)).2.2.2.1⟩

/-- C8: when density is not supplied, the first access to `rho`
computes `310 · c^0.25` elementwise on the broadcast velocity grid and
caches it, and a second access returns the same value without
recomputation and without changing the state; when the stored density
is a scalar, `rho` is broadcast to the full `(nz, nx)` grid exactly as
the velocity `c` is — through the same scalar-to-constant-grid
broadcast. -/
theorem rho_spec {C : Type w} [Field C] [Pow C C] {nz nx : Nat} (st : DiscState C nz nx) :
    (st.rhoF = none →
      (BaseDiscretization.rhoProp st).1 =
        (fun i j => 310 * (BaseDiscretization.cProp st i j) ^ ((4 : C)⁻¹)) ∧
      (BaseDiscretization.rhoProp st).2.2 = true ∧
      (BaseDiscretization.rhoProp (BaseDiscretization.rhoProp st).2.1).1 =
        (BaseDiscretization.rhoProp st).1 ∧
      (BaseDiscretization.rhoProp (BaseDiscretization.rhoProp st).2.1).2.1 =
        (BaseDiscretization.rhoProp st).2.1 ∧
      (BaseDiscretization.rhoProp (BaseDiscretization.rhoProp st).2.1).2.2 = false) ∧
    (∀ v, st.rhoF = some (FieldVal.scalar v) →
      (BaseDiscretization.rhoProp st).1 = broadcastTo (FieldVal.scalar v) ∧
      (BaseDiscretization.rhoProp st).1 = (fun _ _ => v)) ∧
    (∀ w2, st.cF = FieldVal.scalar w2 →
      BaseDiscretization.cProp st = broadcastTo (FieldVal.scalar w2)) := by
  obtain ⟨cF, rhoF⟩ := st
  refine ⟨?_, ?_, ?_⟩
  · intro h
    simp only at h
    subst h
    exact ⟨rfl, rfl, rfl, rfl, rfl⟩
  · intro v h
    simp only at h
    subst h
    simp [BaseDiscretization.rhoProp, broadcastTo]
  · intro w2 h
    simp only at h
    subst h
    rfl

/-- Witness for C8: a one-cell state with scalar velocity and no stored
density, over `ℚ` with an explicit elementwise power operation. -/
theorem rho_spec_witness :
    discStateQ.rhoF = none ∧
    (@BaseDiscretization.rhoProp ℚ _ ratQuarterPow 1 1 discStateQ).2.2 = true :=
  ⟨rfl, ((@rho_spec ℚ _ ratQuarterPow 1 1 discStateQ).1 rfl).2.1⟩

end Zephyr
